import Mathlib

/-!
Verification of the SDT (system description table) builder from `src/sdt.rs`.

The Rust code is shallowly embedded as follows:
* bytes are `Nat` values (< 256 for genuine `u8` data); sized-integer
  parameters (`u8`, `u16`, `u32`, `u64`) are embedded as `Nat` truncated with
  an explicit `% 2^w` at the point where the Rust type boundary sits;
* `Vec<u8>` becomes `List Nat`;
* a panic (a failed `assert!`, an out-of-bounds index, or a debug-mode
  arithmetic overflow/underflow) becomes `none` in an `Option` result;
* generic `write::<T>` / `append::<T>` take the byte representation of the
  value of type `T` as a `List Nat` whose length is `size_of::<T>()`; the
  typed `write_uN` helpers pass little-endian byte lists, matching the raw
  little-endian in-memory representation the pointer write stores.
-/

/-- Little-endian byte representation of the low 16 bits of a number
(the in-memory layout of a `u16`). -/
def le16 (v : Nat) : List Nat :=
  [v % 256, v / 256 % 256]

/-- Little-endian byte representation of the low 32 bits of a number
(the in-memory layout of a `u32`, as produced by `to_le_bytes`). -/
def le32 (v : Nat) : List Nat :=
  [v % 256, v / 256 % 256, v / 65536 % 256, v / 16777216 % 256]

/-- Little-endian byte representation of the low 64 bits of a number
(the in-memory layout of a `u64`). -/
def le64 (v : Nat) : List Nat :=
  [v % 256, v / 256 % 256, v / 65536 % 256, v / 16777216 % 256,
   v / 4294967296 % 256, v / 1099511627776 % 256,
   v / 281474976710656 % 256, v / 72057594037927936 % 256]

/-- The byte stored at index `i` of a buffer (0 when out of range). -/
def byteAt (l : List Nat) (i : Nat) : Nat :=
  (l[i]?).getD 0

/-- The little-endian `u32` read from bytes `[i..i+4)` of a buffer. -/
def readLE32 (l : List Nat) (i : Nat) : Nat :=
  byteAt l i + 256 * byteAt l (i + 1) + 65536 * byteAt l (i + 2) +
    16777216 * byteAt l (i + 3)

/-- Overwrite the bytes of `l` at `[offset..offset+b.length)` with `b`.
This is the effect of the raw pointer write in `Sdt::write` once its bounds
assertion has ensured `offset + b.length ≤ l.length`. -/
def writeBytes (l : List Nat) (offset : Nat) (b : List Nat) : List Nat :=
  l.take offset ++ b ++ l.drop (offset + b.length)

/-- Modelled from the spec: `generate_checksum` is defined at the crate root
(`lib.rs`), which is not part of the sources here; §4.1 of the spec describes
it as summing all bytes modulo 256 with wraparound and returning the value
that makes the total byte sum wrap to zero. -/
def generate_checksum (data : List Nat) : Nat :=
  (256 - data.sum % 256) % 256

/-- Modelled from the spec: `CREATOR_ID` is a process-wide 4-byte constant
defined at the crate root (§6 of the spec); its concrete value is fixed but
irrelevant to every property proved here. -/
def CREATOR_ID : List Nat :=
  [67, 76, 68, 72]

/-- Modelled from the spec: `CREATOR_REVISION` is a process-wide 4-byte
constant defined at the crate root (§6 of the spec). -/
def CREATOR_REVISION : List Nat :=
  [1, 0, 0, 0]

/-- The `Sdt` type of `src/sdt.rs`: a growable byte buffer. -/
structure Sdt where
  data : List Nat
deriving Repr, DecidableEq

/-- `Sdt::update_checksum`: zero the checksum byte at index 9, then store
`generate_checksum` of the whole buffer there.  Indexing `data[9]` panics
(`none`) when the buffer is shorter than 10 bytes. -/
def Sdt.update_checksum (s : Sdt) : Option Sdt :=
  if 9 < s.data.length then
    let zeroed := s.data.set 9 0
    some ⟨zeroed.set 9 (generate_checksum zeroed)⟩
  else none

/-- `Sdt::write::<T>`: bounds-assert `offset + (size_of::<T>() - 1) <
data.len()`, write the value's bytes in place, recompute the checksum.
For a zero-sized `T` the subtraction `size_of::<T>() - 1` underflows `usize`,
which is a panic (debug overflow check), hence `none`. -/
def Sdt.write (s : Sdt) (offset : Nat) (bytes : List Nat) : Option Sdt :=
  if bytes.length = 0 then none
  else if offset + (bytes.length - 1) < s.data.length then
    Sdt.update_checksum ⟨writeBytes s.data offset bytes⟩
  else none

/-- `Sdt::write_u8`. -/
def Sdt.write_u8 (s : Sdt) (offset v : Nat) : Option Sdt :=
  s.write offset [v % 256]

/-- `Sdt::write_u16`. -/
def Sdt.write_u16 (s : Sdt) (offset v : Nat) : Option Sdt :=
  s.write offset (le16 v)

/-- `Sdt::write_u32`. -/
def Sdt.write_u32 (s : Sdt) (offset v : Nat) : Option Sdt :=
  s.write offset (le32 v)

/-- `Sdt::write_u64`. -/
def Sdt.write_u64 (s : Sdt) (offset v : Nat) : Option Sdt :=
  s.write offset (le64 v)

/-- `Sdt::append::<T>`: grow the buffer by `size_of::<T>()` zero bytes
(`Vec::resize`), store the new length as a `u32` at offset 4 (the `as u32`
cast truncates, which `le32` performs), then write the value's bytes at the
old end of the buffer. -/
def Sdt.append (s : Sdt) (bytes : List Nat) : Option Sdt :=
  ((Sdt.mk (s.data ++ List.replicate bytes.length 0)).write_u32 4
      (s.data.length + bytes.length)).bind
    (fun s1 => s1.write s.data.length bytes)

/-- `Sdt::append_slice`: store the new length as a `u32` at offset 4, extend
the buffer with the slice, recompute the checksum. -/
def Sdt.append_slice (s : Sdt) (bytes : List Nat) : Option Sdt :=
  (s.write_u32 4 (s.data.length + bytes.length)).bind
    (fun s1 => Sdt.update_checksum ⟨s1.data ++ bytes⟩)

/-- `Sdt::new`: assert `length >= 36`, lay out the 36-byte header
(signature, length, revision, zero checksum, OEM id, OEM table id, OEM
revision, creator id, creator revision), assert the header is exactly 36
bytes, zero-extend to `length` (`Vec::resize`), and store the checksum. -/
def Sdt.new (signature : List Nat) (length : Nat) (revision : Nat)
    (oem_id : List Nat) (oem_table : List Nat) (oem_revision : Nat) :
    Option Sdt :=
  if length < 36 then none
  else if (signature ++ le32 length ++ [revision % 256, 0] ++ oem_id ++
      oem_table ++ le32 oem_revision ++ CREATOR_ID ++
      CREATOR_REVISION).length = 36 then
    Sdt.update_checksum ⟨(signature ++ le32 length ++ [revision % 256, 0] ++
      oem_id ++ oem_table ++ le32 oem_revision ++ CREATOR_ID ++
      CREATOR_REVISION) ++ List.replicate (length - 36) 0⟩
  else none

/-- The `GenericAddress` structure of `src/sdt.rs` (all fields `u8` except
the `u64` address). -/
structure GenericAddress where
  address_space_id : Nat
  register_bit_width : Nat
  register_bit_offset : Nat
  access_size : Nat
  address : Nat
deriving Repr, DecidableEq

/-- `GenericAddress::io_port_address::<T>`, with `size = size_of::<T>()`.
Rust's `8 * core::mem::size_of::<T>() as u8` parses as
`8 * (size_of::<T>() as u8)`: the cast truncates to `size % 256` and the
multiplication is performed in `u8`, so it overflows (a debug-mode panic,
hence `none`) whenever `8 * (size % 256) ≥ 256`.  The `u16` port number is
zero-extended to `u64`. -/
def GenericAddress.io_port_address (size : Nat) (address : Nat) :
    Option GenericAddress :=
  if 8 * (size % 256) < 256 then
    some ⟨1, 8 * (size % 256), 0, size % 256, address % 65536⟩
  else none

/-- `GenericAddress::mmio_address::<T>`, with `size = size_of::<T>()`; see
`GenericAddress.io_port_address` for the `u8` arithmetic. -/
def GenericAddress.mmio_address (size : Nat) (address : Nat) :
    Option GenericAddress :=
  if 8 * (size % 256) < 256 then
    some ⟨0, 8 * (size % 256), 0, size % 256, address % 18446744073709551616⟩
  else none

/-- The states an `Sdt` can be in after a successful `Sdt::new` followed by
any sequence of successful `append`, `append_slice` and `write` operations
(the `write_uN` helpers are instances of `write`).  The hypotheses on the
lengths of `sig`, `oid` and `ot` and on the magnitude of `len` record the
Rust parameter types `[u8; 4]`, `[u8; 6]`, `[u8; 8]` and `u32`. -/
inductive Reachable : Sdt → Prop where
| of_new : ∀ (sig : List Nat) (len rev : Nat) (oid ot : List Nat)
    (orev : Nat) (s : Sdt), len < 4294967296 → sig.length = 4 →
    oid.length = 6 → ot.length = 8 →
    Sdt.new sig len rev oid ot orev = some s → Reachable s
| of_append : ∀ (s : Sdt) (bytes : List Nat) (s' : Sdt), Reachable s →
    s.append bytes = some s' → Reachable s'
| of_append_slice : ∀ (s : Sdt) (bytes : List Nat) (s' : Sdt), Reachable s →
    s.append_slice bytes = some s' → Reachable s'
| of_write : ∀ (s : Sdt) (off : Nat) (bytes : List Nat) (s' : Sdt),
    Reachable s → s.write off bytes = some s' → Reachable s'

/-- Like `Reachable`, but every explicit `write` avoids the length field at
`[4..8)` (its byte range lies entirely below offset 4 or at offset 8 and
above). -/
inductive ReachableLenSafe : Sdt → Prop where
| of_new : ∀ (sig : List Nat) (len rev : Nat) (oid ot : List Nat)
    (orev : Nat) (s : Sdt), len < 4294967296 → sig.length = 4 →
    oid.length = 6 → ot.length = 8 →
    Sdt.new sig len rev oid ot orev = some s → ReachableLenSafe s
| of_append : ∀ (s : Sdt) (bytes : List Nat) (s' : Sdt), ReachableLenSafe s →
    s.append bytes = some s' → ReachableLenSafe s'
| of_append_slice : ∀ (s : Sdt) (bytes : List Nat) (s' : Sdt),
    ReachableLenSafe s → s.append_slice bytes = some s' →
    ReachableLenSafe s'
| of_write : ∀ (s : Sdt) (off : Nat) (bytes : List Nat) (s' : Sdt),
    ReachableLenSafe s → (8 ≤ off ∨ off + bytes.length ≤ 4) →
    s.write off bytes = some s' → ReachableLenSafe s'

/-- Signature bytes used by the repository's own unit test (`TEST`). -/
def sigT : List Nat := [84, 69, 83, 84]

/-- OEM id bytes used by the repository's own unit test (`CLOUDH`). -/
def oemIdT : List Nat := [67, 76, 79, 85, 68, 72]

/-- OEM table id bytes used by the repository's own unit test
(`TESTTEST`). -/
def oemTableT : List Nat := [84, 69, 83, 84, 84, 69, 83, 84]

/-- The header-only 36-byte table built from the unit test's parameters. -/
def sdt36 : Sdt := (Sdt.new sigT 36 1 oemIdT oemTableT 1).getD ⟨[]⟩

/-- The 40-byte table of the unit test `tests::test_sdt`. -/
def sdt40 : Sdt := (Sdt.new sigT 40 1 oemIdT oemTableT 1).getD ⟨[]⟩


/-! ### Basic lemmas about `writeBytes` -/

theorem length_writeBytes (l b : List Nat) (off : Nat)
    (h : off + b.length ≤ l.length) :
    (writeBytes l off b).length = l.length := by
  simp only [writeBytes, List.length_append, List.length_take,
    List.length_drop]
  omega

theorem getElem?_writeBytes_lt {l b : List Nat} {off i : Nat} (h : i < off)
    (hle : off ≤ l.length) : (writeBytes l off b)[i]? = l[i]? := by
  have h1 : i < (l.take off).length := by
    simp only [List.length_take]; omega
  have h2 : i < (l.take off ++ b).length := by
    simp only [List.length_append, List.length_take]; omega
  unfold writeBytes
  rw [List.getElem?_append_left h2, List.getElem?_append_left h1,
    List.getElem?_take_of_lt h]

theorem getElem?_writeBytes_mid {l b : List Nat} {off i : Nat} (h1 : off ≤ i)
    (h2 : i < off + b.length) (hle : off ≤ l.length) :
    (writeBytes l off b)[i]? = b[i - off]? := by
  have ht : (l.take off).length = off := by
    simp only [List.length_take]; omega
  have ha : i < (l.take off ++ b).length := by
    simp only [List.length_append, List.length_take]; omega
  unfold writeBytes
  rw [List.getElem?_append_left ha, List.getElem?_append_right (by omega)]
  rw [ht]

theorem getElem?_writeBytes_ge {l b : List Nat} {off i : Nat}
    (h : off + b.length ≤ i) (hle : off + b.length ≤ l.length) :
    (writeBytes l off b)[i]? = l[i]? := by
  have hlen : (l.take off ++ b).length = off + b.length := by
    simp only [List.length_append, List.length_take]; omega
  unfold writeBytes
  rw [List.getElem?_append_right (by omega), List.getElem?_drop, hlen]
  congr 1
  omega

/-! ### Basic lemmas about `Sdt.update_checksum` -/

theorem update_checksum_eq_some {s t : Sdt} (h : s.update_checksum = some t) :
    9 < s.data.length ∧
    t.data = (s.data.set 9 0).set 9 (generate_checksum (s.data.set 9 0)) := by
  unfold Sdt.update_checksum at h
  split at h
  · cases h
    exact ⟨by assumption, rfl⟩
  · cases h

theorem update_checksum_some {s : Sdt} (h : 9 < s.data.length) :
    s.update_checksum =
      some ⟨(s.data.set 9 0).set 9 (generate_checksum (s.data.set 9 0))⟩ := by
  unfold Sdt.update_checksum
  rw [if_pos h]

theorem update_checksum_length {s t : Sdt}
    (h : s.update_checksum = some t) : t.data.length = s.data.length := by
  obtain ⟨h9, hd⟩ := update_checksum_eq_some h
  simp [hd]

theorem update_checksum_getElem?_ne {s t : Sdt} {i : Nat}
    (h : s.update_checksum = some t) (hi : i ≠ 9) :
    t.data[i]? = s.data[i]? := by
  obtain ⟨h9, hd⟩ := update_checksum_eq_some h
  rw [hd, List.getElem?_set_ne (by omega), List.getElem?_set_ne (by omega)]

theorem sum_set_add (l : List Nat) (i v : Nat) (h : i < l.length) :
    (l.set i v).sum + l.getD i 0 = l.sum + v := by
  induction l generalizing i with
  | nil => simp at h
  | cons a t ih =>
    cases i with
    | zero => simp [List.getD]; omega
    | succ n =>
      simp only [List.set, List.sum_cons, List.getD_cons_succ]
      have := ih n (by simpa using h)
      omega

theorem sum_update_checksum {s t : Sdt} (h : s.update_checksum = some t) :
    t.data.sum % 256 = 0 := by
  obtain ⟨h9, hd⟩ := update_checksum_eq_some h
  have hzlen : 9 < (s.data.set 9 0).length := by
    simp only [List.length_set]; exact h9
  have hz9 : (s.data.set 9 0).getD 9 0 = 0 := by
    rw [List.getD_eq_getElem?_getD, List.getElem?_set_self h9]
    rfl
  have hsum := sum_set_add (s.data.set 9 0) 9
    (generate_checksum (s.data.set 9 0)) hzlen
  rw [hz9] at hsum
  rw [hd]
  unfold generate_checksum at hsum ⊢
  omega

/-! ### Basic lemmas about `Sdt.write` -/

theorem write_eq_some {s t : Sdt} {off : Nat} {bytes : List Nat}
    (h : s.write off bytes = some t) :
    1 ≤ bytes.length ∧ off + bytes.length ≤ s.data.length ∧
    Sdt.update_checksum ⟨writeBytes s.data off bytes⟩ = some t := by
  unfold Sdt.write at h
  by_cases h0 : bytes.length = 0
  · rw [if_pos h0] at h
    cases h
  · rw [if_neg h0] at h
    by_cases hb : off + (bytes.length - 1) < s.data.length
    · rw [if_pos hb] at h
      exact ⟨by omega, by omega, h⟩
    · rw [if_neg hb] at h
      cases h

theorem write_some {s : Sdt} {off : Nat} {bytes : List Nat}
    (h1 : 1 ≤ bytes.length) (h2 : off + bytes.length ≤ s.data.length)
    (h9 : 9 < s.data.length) :
    s.write off bytes =
      some ⟨((writeBytes s.data off bytes).set 9 0).set 9
        (generate_checksum ((writeBytes s.data off bytes).set 9 0))⟩ := by
  have h9w : 9 < (Sdt.mk (writeBytes s.data off bytes)).data.length := by
    simpa only [length_writeBytes s.data bytes off h2] using h9
  unfold Sdt.write
  rw [if_neg (by omega), if_pos (by omega), update_checksum_some h9w]

theorem write_length {s t : Sdt} {off : Nat} {bytes : List Nat}
    (h : s.write off bytes = some t) : t.data.length = s.data.length := by
  obtain ⟨h1, h2, h3⟩ := write_eq_some h
  rw [update_checksum_length h3]
  exact length_writeBytes _ _ _ h2

theorem write_getElem?_outside {s t : Sdt} {off i : Nat} {bytes : List Nat}
    (h : s.write off bytes = some t) (hi9 : i ≠ 9)
    (hout : i < off ∨ off + bytes.length ≤ i) :
    t.data[i]? = s.data[i]? := by
  obtain ⟨h1, h2, h3⟩ := write_eq_some h
  rw [update_checksum_getElem?_ne h3 hi9]
  rcases hout with hlt | hge
  · exact getElem?_writeBytes_lt hlt (by omega)
  · exact getElem?_writeBytes_ge hge h2

theorem write_getElem?_mid {s t : Sdt} {off i : Nat} {bytes : List Nat}
    (h : s.write off bytes = some t) (hi9 : i ≠ 9) (hlo : off ≤ i)
    (hhi : i < off + bytes.length) :
    t.data[i]? = bytes[i - off]? := by
  obtain ⟨h1, h2, h3⟩ := write_eq_some h
  rw [update_checksum_getElem?_ne h3 hi9]
  exact getElem?_writeBytes_mid hlo hhi (by omega)

/-! ### Inversion lemmas for `append`, `append_slice` and `new` -/

theorem append_eq_some {s t : Sdt} {bytes : List Nat}
    (h : s.append bytes = some t) :
    ∃ s1 : Sdt,
      (Sdt.mk (s.data ++ List.replicate bytes.length 0)).write 4
        (le32 (s.data.length + bytes.length)) = some s1 ∧
      s1.write s.data.length bytes = some t := by
  unfold Sdt.append Sdt.write_u32 at h
  exact Option.bind_eq_some.mp h

theorem append_slice_eq_some {s t : Sdt} {bytes : List Nat}
    (h : s.append_slice bytes = some t) :
    ∃ s1 : Sdt,
      s.write 4 (le32 (s.data.length + bytes.length)) = some s1 ∧
      Sdt.update_checksum ⟨s1.data ++ bytes⟩ = some t := by
  unfold Sdt.append_slice Sdt.write_u32 at h
  exact Option.bind_eq_some.mp h

theorem new_eq_some {sig oid ot : List Nat} {len rev orev : Nat} {s : Sdt}
    (h : Sdt.new sig len rev oid ot orev = some s) :
    36 ≤ len ∧
    (sig ++ le32 len ++ [rev % 256, 0] ++ oid ++ ot ++ le32 orev ++
      CREATOR_ID ++ CREATOR_REVISION).length = 36 ∧
    Sdt.update_checksum ⟨(sig ++ le32 len ++ [rev % 256, 0] ++ oid ++ ot ++
      le32 orev ++ CREATOR_ID ++ CREATOR_REVISION) ++
      List.replicate (len - 36) 0⟩ = some s := by
  unfold Sdt.new at h
  by_cases h1 : len < 36
  · rw [if_pos h1] at h
    cases h
  · rw [if_neg h1] at h
    by_cases h2 : (sig ++ le32 len ++ [rev % 256, 0] ++ oid ++ ot ++
        le32 orev ++ CREATOR_ID ++ CREATOR_REVISION).length = 36
    · rw [if_pos h2] at h
      exact ⟨by omega, h2, h⟩
    · rw [if_neg h2] at h
      cases h

theorem new_length {sig oid ot : List Nat} {len rev orev : Nat} {s : Sdt}
    (h : Sdt.new sig len rev oid ot orev = some s) : s.data.length = len := by
  obtain ⟨h36, hh, hu⟩ := new_eq_some h
  rw [update_checksum_length hu]
  show ((sig ++ le32 len ++ [rev % 256, 0] ++ oid ++ ot ++ le32 orev ++
    CREATOR_ID ++ CREATOR_REVISION) ++ List.replicate (len - 36) 0).length = len
  rw [List.length_append, hh, List.length_replicate]
  omega

/-! ### Length invariant of reachable states -/

theorem reachable_length {s : Sdt} (h : Reachable s) : 36 ≤ s.data.length := by
  induction h with
  | of_new sig len rev oid ot orev s hlen hsig hoid hot hnew =>
    rw [new_length hnew]
    exact (new_eq_some hnew).1
  | of_append s bytes s' hr happ ih =>
    obtain ⟨s1, hw32, hw⟩ := append_eq_some happ
    have l1 := write_length hw32
    have l2 := write_length hw
    simp only [List.length_append, List.length_replicate] at l1
    omega
  | of_append_slice s bytes s' hr happ ih =>
    obtain ⟨s1, hw32, hu⟩ := append_slice_eq_some happ
    have l1 := write_length hw32
    have l2 := update_checksum_length hu
    simp only [List.length_append] at l2
    omega
  | of_write s off bytes s' hr hw ih =>
    have := write_length hw
    omega

theorem reachableLenSafe_reachable {s : Sdt} (h : ReachableLenSafe s) :
    Reachable s := by
  induction h with
  | of_new sig len rev oid ot orev s hlen hsig hoid hot hnew =>
    exact Reachable.of_new sig len rev oid ot orev s hlen hsig hoid hot hnew
  | of_append s bytes s' _ happ ih => exact Reachable.of_append s bytes s' ih happ
  | of_append_slice s bytes s' _ happ ih =>
    exact Reachable.of_append_slice s bytes s' ih happ
  | of_write s off bytes s' _ hoff hw ih =>
    exact Reachable.of_write s off bytes s' ih hw

/-! ### Lemmas about `readLE32` -/

theorem readLE32_congr {l l' : List Nat} {i : Nat}
    (h : ∀ j, j < 4 → l[i + j]? = l'[i + j]?) :
    readLE32 l i = readLE32 l' i := by
  have h0 := h 0 (by omega)
  have h1 := h 1 (by omega)
  have h2 := h 2 (by omega)
  have h3 := h 3 (by omega)
  rw [Nat.add_zero] at h0
  unfold readLE32 byteAt
  rw [h0, h1, h2, h3]

theorem readLE32_eq_le32 {l : List Nat} {i v : Nat}
    (h : ∀ j, j < 4 → l[i + j]? = (le32 v)[j]?) :
    readLE32 l i = v % 4294967296 := by
  have h0 := h 0 (by omega)
  have h1 := h 1 (by omega)
  have h2 := h 2 (by omega)
  have h3 := h 3 (by omega)
  rw [Nat.add_zero] at h0
  simp only [le32, List.getElem?_cons_zero, List.getElem?_cons_succ] at h0 h1 h2 h3
  unfold readLE32 byteAt
  rw [h0, h1, h2, h3]
  simp only [Option.getD_some]
  omega

/-! ### Claim theorems -/

/-- C1: for every state reachable by a sequence of operations drawn from
`new`, `append`, `append_slice` and `write` (the `write_u8`/`u16`/`u32`/`u64`
variants are instances of `write`), the wrapping unsigned sum of all bytes in
the buffer, taken modulo 256, equals 0 after each operation returns. -/
theorem c1_checksum_invariant (s : Sdt) (h : Reachable s) :
    s.data.sum % 256 = 0 := by
  induction h with
  | of_new sig len rev oid ot orev s hlen hsig hoid hot hnew =>
    exact sum_update_checksum (new_eq_some hnew).2.2
  | of_append s bytes s' hr happ ih =>
    obtain ⟨s1, hw32, hw⟩ := append_eq_some happ
    exact sum_update_checksum (write_eq_some hw).2.2
  | of_append_slice s bytes s' hr happ ih =>
    obtain ⟨s1, hw32, hu⟩ := append_slice_eq_some happ
    exact sum_update_checksum hu
  | of_write s off bytes s' hr hw ih =>
    exact sum_update_checksum (write_eq_some hw).2.2

theorem c1_checksum_invariant_witness : sdt40.data.sum % 256 = 0 :=
  c1_checksum_invariant sdt40
    (Reachable.of_new sigT 40 1 oemIdT oemTableT 1 sdt40 (by decide)
      (by decide) (by decide) (by decide) (by decide))

/-- C3: for a table whose length `L` is at least the 36-byte header (the
spec's standing invariant on every `Sdt`) and a value of at least one byte,
`write` aborts exactly when `offset + size` exceeds `L`; in particular a
2-byte write at `L - 1` aborts and a 2-byte write at `L - 2` succeeds.  An
abort is modelled as `none`: no post-state exists, so no partial mutation is
ever visible. -/
theorem c3_write_bounds (s : Sdt) (off : Nat) (bytes : List Nat)
    (hs : 36 ≤ s.data.length) (hn : 1 ≤ bytes.length) :
    (s.write off bytes = none ↔ s.data.length < off + bytes.length) ∧
    (∀ b1 b2 : Nat, s.write (s.data.length - 1) [b1, b2] = none) ∧
    (∀ b1 b2 : Nat, (s.write (s.data.length - 2) [b1, b2]).isSome = true) := by
  have hiff : ∀ (off' : Nat) (bs : List Nat), 1 ≤ bs.length →
      (s.write off' bs = none ↔ s.data.length < off' + bs.length) := by
    intro off' bs h1
    constructor
    · intro hnone
      by_contra hlt
      rw [write_some h1 (by omega) (by omega)] at hnone
      cases hnone
    · intro hgt
      unfold Sdt.write
      rw [if_neg (by omega), if_neg (by omega)]
  refine ⟨hiff off bytes hn, ?_, ?_⟩
  · intro b1 b2
    rw [hiff (s.data.length - 1) [b1, b2] (by simp)]
    simp only [List.length_cons, List.length_nil]
    omega
  · intro b1 b2
    rw [write_some (by simp)
      (by simp only [List.length_cons, List.length_nil]; omega) (by omega)]
    rfl

theorem c3_write_bounds_witness :
    Sdt.write sdt36 (sdt36.data.length - 1) [170, 187] = none ∧
    (Sdt.write sdt36 (sdt36.data.length - 2) [170, 187]).isSome = true :=
  ⟨(c3_write_bounds sdt36 0 [1] (by decide) (by decide)).2.1 170 187,
   (c3_write_bounds sdt36 0 [1] (by decide) (by decide)).2.2 170 187⟩

/-- C8: a successful `write` never changes the buffer's length, and every
byte outside the written range `[offset, offset + size)` other than the
checksum byte at offset 9 is unchanged. -/
theorem c8_write_frame (s t : Sdt) (off : Nat) (bytes : List Nat)
    (h : s.write off bytes = some t) :
    t.data.length = s.data.length ∧
    ∀ i, i ≠ 9 → (i < off ∨ off + bytes.length ≤ i) →
      t.data[i]? = s.data[i]? :=
  ⟨write_length h, fun _ hi9 hout => write_getElem?_outside h hi9 hout⟩

/-- The unit test's 40-byte table after its `write_u32(36, 0x12345678)`. -/
def sdt40w : Sdt := (sdt40.write_u32 36 305419896).getD ⟨[]⟩

theorem c8_write_frame_witness :
    sdt40w.data.length = sdt40.data.length ∧ sdt40w.data[0]? = sdt40.data[0]? :=
  ⟨(c8_write_frame sdt40 sdt40w 36 (le32 305419896) (by decide)).1,
   (c8_write_frame sdt40 sdt40w 36 (le32 305419896) (by decide)).2 0
     (by decide) (by decide)⟩

/-- C9: a `write` of a zero-sized type aborts for every offset, even an
in-bounds one, because the bounds check computes `offset + (size_of - 1)`
and the unsigned subtraction `0 - 1` overflows `usize`. -/
theorem c9_zst_write_fails (s : Sdt) (off : Nat)
    (hoff : off < s.data.length) : s.write off [] = none := by
  unfold Sdt.write
  simp

theorem c9_zst_write_fails_witness :
    0 < sdt36.data.length ∧ Sdt.write sdt36 0 [] = none :=
  ⟨by decide, c9_zst_write_fails sdt36 0 (by decide)⟩

/-- C10: `update_checksum` changes no byte other than the checksum byte at
offset 9 (in particular it preserves the length), and it is idempotent:
applying it to its own output returns that output unchanged. -/
theorem c10_update_checksum_idempotent (s t : Sdt)
    (h : s.update_checksum = some t) :
    t.data.length = s.data.length ∧
    (∀ i, i ≠ 9 → t.data[i]? = s.data[i]?) ∧
    t.update_checksum = some t := by
  refine ⟨update_checksum_length h,
    fun _ hi => update_checksum_getElem?_ne h hi, ?_⟩
  obtain ⟨h9, hd⟩ := update_checksum_eq_some h
  have h9t : 9 < t.data.length := by
    rw [update_checksum_length h]
    exact h9
  rw [update_checksum_some h9t]
  have hcollapse : t.data.set 9 0 = s.data.set 9 0 := by
    rw [hd, List.set_set, List.set_set]
  rw [hcollapse, ← hd]

theorem c10_update_checksum_idempotent_witness :
    sdt36.update_checksum = some sdt36 :=
  (c10_update_checksum_idempotent sdt36 sdt36 (by decide)).2.2

/-- C7 counterexample: for a storage type of size 32 bytes the claimed value
(register_bit_width `8 * 32 = 256`) cannot be returned: the `u8`
multiplication `8 * (size_of::<T>() as u8)` overflows and the factory
aborts instead of returning a `GenericAddress`. -/
theorem c7_register_address_counterexample :
    GenericAddress.mmio_address 32 0 = none ∧
    GenericAddress.io_port_address 32 0 = none := by decide

/-- C7 amended: the factories return exactly when `8 * (size_of(T) mod 256)`
fits in a `u8`; a returned value carries address-space id 0 (mmio) or 1
(port I/O), bit width `8 * (size_of(T) mod 256)`, bit offset 0, access size
`size_of(T) mod 256`, and the address truncated to its Rust type (`u64`
for mmio, the zero-extended `u16` port for I/O); the concrete `u32`/`u8`
examples hold, and every value either factory constructs satisfies
`register_bit_width = 8 * access_size`. -/
theorem c7_register_address_amended (size a : Nat) :
    (8 * (size % 256) < 256 →
      GenericAddress.mmio_address size a =
        some ⟨0, 8 * (size % 256), 0, size % 256,
          a % 18446744073709551616⟩ ∧
      GenericAddress.io_port_address size a =
        some ⟨1, 8 * (size % 256), 0, size % 256, a % 65536⟩) ∧
    (256 ≤ 8 * (size % 256) →
      GenericAddress.mmio_address size a = none ∧
      GenericAddress.io_port_address size a = none) ∧
    (∀ g : GenericAddress,
      GenericAddress.mmio_address size a = some g ∨
      GenericAddress.io_port_address size a = some g →
      g.register_bit_width = 8 * g.access_size ∧
      g.register_bit_offset = 0) ∧
    GenericAddress.mmio_address 4 4096 = some ⟨0, 32, 0, 4, 4096⟩ ∧
    GenericAddress.io_port_address 1 1024 = some ⟨1, 8, 0, 1, 1024⟩ := by
  refine ⟨?_, ?_, ?_, by decide, by decide⟩
  · intro h
    unfold GenericAddress.mmio_address GenericAddress.io_port_address
    rw [if_pos h, if_pos h]
    exact ⟨rfl, rfl⟩
  · intro h
    unfold GenericAddress.mmio_address GenericAddress.io_port_address
    rw [if_neg (by omega), if_neg (by omega)]
    exact ⟨rfl, rfl⟩
  · intro g hg
    unfold GenericAddress.mmio_address GenericAddress.io_port_address at hg
    by_cases h : 8 * (size % 256) < 256
    · rcases hg with hg | hg
      · rw [if_pos h] at hg
        cases hg
        exact ⟨rfl, rfl⟩
      · rw [if_pos h] at hg
        cases hg
        exact ⟨rfl, rfl⟩
    · rcases hg with hg | hg <;> rw [if_neg h] at hg <;> cases hg

theorem c7_register_address_amended_witness :
    GenericAddress.mmio_address 2 256 = some ⟨0, 16, 0, 2, 256⟩ ∧
    GenericAddress.io_port_address 2 256 = some ⟨1, 16, 0, 2, 256⟩ :=
  (c7_register_address_amended 2 256).1 (by decide)

/-- C5: on any table whose length `L` respects the 36-byte header invariant,
`append_slice s` returns a buffer of length `L + len(s)` whose first `L`
bytes outside the length field `[4..8)` and the checksum byte 9 are
unchanged, whose length field reads the new total (as a `u32`), and whose
last `len(s)` bytes are exactly `s`. -/
theorem c5_append_slice_spec (s : Sdt) (bytes : List Nat)
    (hs : 36 ≤ s.data.length) :
    ∃ t, s.append_slice bytes = some t ∧
      t.data.length = s.data.length + bytes.length ∧
      readLE32 t.data 4 = (s.data.length + bytes.length) % 4294967296 ∧
      (∀ i, i < s.data.length → i < 4 ∨ 8 ≤ i → i ≠ 9 →
        t.data[i]? = s.data[i]?) ∧
      t.data.drop s.data.length = bytes := by
  have hle32 : (le32 (s.data.length + bytes.length)).length = 4 := rfl
  obtain ⟨s1, hw32⟩ : ∃ s1,
      s.write 4 (le32 (s.data.length + bytes.length)) = some s1 :=
    ⟨_, write_some (by omega) (by omega) (by omega)⟩
  have hs1len : s1.data.length = s.data.length := write_length hw32
  have h9 : 9 < (Sdt.mk (s1.data ++ bytes)).data.length := by
    simp only [List.length_append]
    omega
  obtain ⟨t, hu⟩ : ∃ t, Sdt.update_checksum ⟨s1.data ++ bytes⟩ = some t :=
    ⟨_, update_checksum_some h9⟩
  have htlen : t.data.length = s.data.length + bytes.length := by
    rw [update_checksum_length hu]
    simp only [List.length_append]
    omega
  have happ : s.append_slice bytes = some t := by
    unfold Sdt.append_slice Sdt.write_u32
    rw [hw32]
    exact hu
  refine ⟨t, happ, htlen, ?_, ?_, ?_⟩
  · apply readLE32_eq_le32
    intro j hj
    rw [update_checksum_getElem?_ne hu (by omega)]
    rw [List.getElem?_append_left (by omega)]
    rw [write_getElem?_mid hw32 (by omega) (by omega) (by omega)]
    rw [show 4 + j - 4 = j from by omega]
  · intro i hiL hiout hi9
    rw [update_checksum_getElem?_ne hu hi9]
    rw [List.getElem?_append_left (by omega)]
    exact write_getElem?_outside hw32 hi9 (by omega)
  · apply List.ext_getElem?
    intro j
    rw [List.getElem?_drop]
    by_cases hj : j < bytes.length
    · rw [update_checksum_getElem?_ne hu (by omega)]
      rw [List.getElem?_append_right (by omega)]
      congr 1
      omega
    · rw [List.getElem?_eq_none (by omega), List.getElem?_eq_none (by omega)]

/-- The 39-byte table obtained by appending the spec's example slice. -/
def sdt39 : Sdt := (sdt36.append_slice [170, 187, 204]).getD ⟨[]⟩

theorem c5_append_slice_spec_witness :
    sdt39.data.length = 39 ∧ readLE32 sdt39.data 4 = 39 ∧
    sdt39.data.drop 36 = [170, 187, 204] := by
  obtain ⟨t, h1, h2, h3, h4, h5⟩ :=
    c5_append_slice_spec sdt36 [170, 187, 204] (by decide)
  have ht : sdt39 = t := by
    show (sdt36.append_slice [170, 187, 204]).getD ⟨[]⟩ = t
    rw [h1]
    rfl
  rw [ht]
  refine ⟨by rw [h2]; decide, by rw [h3]; decide, ?_⟩
  have h36 : sdt36.data.length = 36 := by decide
  rw [← h36]
  exact h5

/-- C6 counterexample: for a zero-sized value type the claim fails — on a
valid 36-byte table `append` of a zero-byte value aborts (the internal
`write` bounds check underflows) instead of returning the claimed grown
buffer of length `L + 0`. -/
theorem c6_append_counterexample :
    36 ≤ sdt36.data.length ∧ Sdt.append sdt36 [] = none := by decide

/-- C6 amended: on a table respecting the 36-byte header invariant, `append`
of a zero-sized value aborts; for a value of size at least 1 it grows the
buffer by `size` bytes, stores the new total length (truncated to `u32`) in
the length field, places the value's bytes at the previous end, restores the
checksum (the byte sum of the result is 0 mod 256), and leaves the other
pre-existing bytes except the checksum byte unchanged. -/
theorem c6_append_amended (s : Sdt) (bytes : List Nat)
    (hs : 36 ≤ s.data.length) :
    (bytes.length = 0 → s.append bytes = none) ∧
    (1 ≤ bytes.length → ∃ t, s.append bytes = some t ∧
      t.data.length = s.data.length + bytes.length ∧
      readLE32 t.data 4 = (s.data.length + bytes.length) % 4294967296 ∧
      (∀ j, j < bytes.length → t.data[s.data.length + j]? = bytes[j]?) ∧
      (∀ i, i < s.data.length → i < 4 ∨ 8 ≤ i → i ≠ 9 →
        t.data[i]? = s.data[i]?) ∧
      t.data.sum % 256 = 0) := by
  constructor
  · intro h0
    unfold Sdt.append Sdt.write_u32
    cases hw : (Sdt.mk (s.data ++ List.replicate bytes.length 0)).write 4
        (le32 (s.data.length + bytes.length)) with
    | none => rfl
    | some s1 =>
      show s1.write s.data.length bytes = none
      unfold Sdt.write
      rw [if_pos h0]
  · intro hn
    have hle32 : (le32 (s.data.length + bytes.length)).length = 4 := rfl
    have hglen : (Sdt.mk (s.data ++ List.replicate bytes.length 0)).data.length
        = s.data.length + bytes.length := by
      simp only [List.length_append, List.length_replicate]
    obtain ⟨s1, hw32⟩ : ∃ s1,
        (Sdt.mk (s.data ++ List.replicate bytes.length 0)).write 4
          (le32 (s.data.length + bytes.length)) = some s1 :=
      ⟨_, write_some (by omega) (by omega) (by omega)⟩
    have hs1len := write_length hw32
    obtain ⟨t, hw⟩ : ∃ t, s1.write s.data.length bytes = some t :=
      ⟨_, write_some hn (by omega) (by omega)⟩
    have happ : s.append bytes = some t := by
      unfold Sdt.append Sdt.write_u32
      rw [hw32]
      exact hw
    have htlen : t.data.length = s.data.length + bytes.length := by
      rw [write_length hw]
      omega
    refine ⟨t, happ, htlen, ?_, ?_, ?_,
      sum_update_checksum (write_eq_some hw).2.2⟩
    · apply readLE32_eq_le32
      intro j hj
      rw [write_getElem?_outside hw (by omega) (by omega)]
      rw [write_getElem?_mid hw32 (by omega) (by omega) (by omega)]
      rw [show 4 + j - 4 = j from by omega]
    · intro j hj
      rw [write_getElem?_mid hw (by omega) (by omega) (by omega)]
      congr 1
      omega
    · intro i hiL hiout hi9
      rw [write_getElem?_outside hw hi9 (by omega)]
      rw [write_getElem?_outside hw32 hi9 (by omega)]
      exact List.getElem?_append_left hiL

/-- The 37-byte table obtained by appending a one-byte value to `sdt36`. -/
def sdt37 : Sdt := (sdt36.append [9]).getD ⟨[]⟩

theorem c6_append_amended_witness :
    sdt37.data.length = 37 ∧ readLE32 sdt37.data 4 = 37 ∧
    sdt37.data[36]? = some 9 ∧ sdt37.data.sum % 256 = 0 := by
  obtain ⟨t, h1, h2, h3, h4, h5, h6⟩ :=
    (c6_append_amended sdt36 [9] (by decide)).2 (by decide)
  have ht : sdt37 = t := by
    show (sdt36.append [9]).getD ⟨[]⟩ = t
    rw [h1]
    rfl
  rw [ht]
  refine ⟨by rw [h2]; decide, by rw [h3]; decide, ?_, h6⟩
  have := h4 0 (by decide)
  simpa using this

/-- The reachable table obtained from `sdt36` by `write_u32(4, 0)`. -/
def sdtBad : Sdt := (sdt36.write_u32 4 0).getD ⟨[]⟩

/-- C2 counterexample: `write` at offset 4 is a legal operation of the API,
and it overwrites the length field; after `new(TEST, 36, ...)` followed by
`write_u32(4, 0)` the u32 at `[4..8)` reads 0 while the buffer length is
still 36. -/
theorem c2_length_field_counterexample :
    Reachable sdtBad ∧ readLE32 sdtBad.data 4 ≠ sdtBad.data.length := by
  constructor
  · exact Reachable.of_write sdt36 4 (le32 0) sdtBad
      (Reachable.of_new sigT 36 1 oemIdT oemTableT 1 sdt36 (by decide)
        (by decide) (by decide) (by decide) (by decide))
      (by decide)
  · decide

/-- C2 amended: along every operation sequence in which no explicit `write`
overlaps the length field `[4..8)`, the u32 at `[4..8)` equals the buffer's
total byte length reduced modulo `2^32` (the field is stored through an
`as u32` cast); in particular it equals the length itself whenever the
length is below `2^32`, and this holds after every `append` and
`append_slice`. -/
theorem c2_length_field_amended (s : Sdt) (h : ReachableLenSafe s) :
    readLE32 s.data 4 = s.data.length % 4294967296 := by
  induction h with
  | of_new sig len rev oid ot orev s hlen hsig hoid hot hnew =>
    obtain ⟨h36, hh, hu⟩ := new_eq_some hnew
    rw [new_length hnew]
    apply readLE32_eq_le32
    intro j hj
    rw [update_checksum_getElem?_ne hu (by omega)]
    simp only [List.append_assoc]
    rw [List.getElem?_append_right (by omega)]
    rw [show 4 + j - sig.length = j from by omega]
    rw [List.getElem?_append_left (by rw [show (le32 len).length = 4 from rfl]; omega)]
  | of_append s bytes s' hr happ ih =>
    have hs36 : 36 ≤ s.data.length :=
      reachable_length (reachableLenSafe_reachable hr)
    have hle32 : (le32 (s.data.length + bytes.length)).length = 4 := rfl
    obtain ⟨s1, hw32, hw⟩ := append_eq_some happ
    have hglen : (Sdt.mk (s.data ++ List.replicate bytes.length 0)).data.length
        = s.data.length + bytes.length := by
      simp only [List.length_append, List.length_replicate]
    have hs1len := write_length hw32
    have hslen' := write_length hw
    rw [show s'.data.length = s.data.length + bytes.length from by omega]
    apply readLE32_eq_le32
    intro j hj
    rw [write_getElem?_outside hw (by omega) (by omega)]
    rw [write_getElem?_mid hw32 (by omega) (by omega) (by omega)]
    rw [show 4 + j - 4 = j from by omega]
  | of_append_slice s bytes s' hr happ ih =>
    have hs36 : 36 ≤ s.data.length :=
      reachable_length (reachableLenSafe_reachable hr)
    have hle32 : (le32 (s.data.length + bytes.length)).length = 4 := rfl
    obtain ⟨s1, hw32, hu⟩ := append_slice_eq_some happ
    have hs1len := write_length hw32
    have htlen : s'.data.length = s.data.length + bytes.length := by
      rw [update_checksum_length hu]
      simp only [List.length_append]
      omega
    rw [htlen]
    apply readLE32_eq_le32
    intro j hj
    rw [update_checksum_getElem?_ne hu (by omega)]
    rw [List.getElem?_append_left (by omega)]
    rw [write_getElem?_mid hw32 (by omega) (by omega) (by omega)]
    rw [show 4 + j - 4 = j from by omega]
  | of_write s off bytes s' hr hoff hw ih =>
    rw [write_length hw, ← ih]
    apply readLE32_congr
    intro j hj
    exact write_getElem?_outside hw (by omega) (by omega)

theorem c2_length_field_amended_witness :
    readLE32 sdt36.data 4 = sdt36.data.length % 4294967296 :=
  c2_length_field_amended sdt36
    (ReachableLenSafe.of_new sigT 36 1 oemIdT oemTableT 1 sdt36 (by decide)
      (by decide) (by decide) (by decide) (by decide))

/-- C4: `new` aborts exactly when `length < 36`; otherwise it returns a
buffer of exactly `length` bytes laid out as: signature at `[0..4)`, the
length as a little-endian u32 at `[4..8)`, the revision at 8, the checksum
byte at 9, the OEM id at `[10..16)`, the OEM table id at `[16..24)`, the OEM
revision as a little-endian u32 at `[24..28)`, the process-wide creator id
at `[28..32)` and creator revision at `[32..36)`, all bytes from 36 up to
`length` zero, and the wrapping byte sum of the whole buffer 0 mod 256. -/
theorem c4_new_spec (sig : List Nat) (len rev : Nat) (oid ot : List Nat)
    (orev : Nat) (hsig : sig.length = 4) (hoid : oid.length = 6)
    (hot : ot.length = 8) (hrev : rev < 256) (horev : orev < 4294967296)
    (hlen32 : len < 4294967296) :
    (len < 36 → Sdt.new sig len rev oid ot orev = none) ∧
    (36 ≤ len → ∃ s, Sdt.new sig len rev oid ot orev = some s ∧
      s.data.length = len ∧
      (∀ j, j < 4 → s.data[j]? = sig[j]?) ∧
      readLE32 s.data 4 = len ∧
      s.data[8]? = some rev ∧
      (∀ j, j < 6 → s.data[10 + j]? = oid[j]?) ∧
      (∀ j, j < 8 → s.data[16 + j]? = ot[j]?) ∧
      readLE32 s.data 24 = orev ∧
      (∀ j, j < 4 → s.data[28 + j]? = CREATOR_ID[j]?) ∧
      (∀ j, j < 4 → s.data[32 + j]? = CREATOR_REVISION[j]?) ∧
      (∀ i, 36 ≤ i → i < len → s.data[i]? = some 0) ∧
      s.data.sum % 256 = 0) := by
  have hsl : (le32 len).length = 4 := rfl
  have hol : (le32 orev).length = 4 := rfl
  have hcid : CREATOR_ID.length = 4 := rfl
  have hcrev : CREATOR_REVISION.length = 4 := rfl
  have hrv : ([rev % 256, 0] : List Nat).length = 2 := rfl
  constructor
  · intro h
    unfold Sdt.new
    rw [if_pos h]
  · intro h36
    have hh : (sig ++ le32 len ++ [rev % 256, 0] ++ oid ++ ot ++ le32 orev ++
        CREATOR_ID ++ CREATOR_REVISION).length = 36 := by
      simp only [List.length_append]
      omega
    have h9 : 9 < ((sig ++ le32 len ++ [rev % 256, 0] ++ oid ++ ot ++
        le32 orev ++ CREATOR_ID ++ CREATOR_REVISION) ++
        List.replicate (len - 36) 0).length := by
      rw [List.length_append, hh]
      omega
    obtain ⟨s, hnew⟩ : ∃ s, Sdt.new sig len rev oid ot orev = some s :=
      ⟨_, by
        unfold Sdt.new
        rw [if_neg (by omega), if_pos hh]
        exact update_checksum_some h9⟩
    obtain ⟨-, -, hu⟩ := new_eq_some hnew
    have hidx : ∀ i, i ≠ 9 → s.data[i]? =
        ((sig ++ le32 len ++ [rev % 256, 0] ++ oid ++ ot ++ le32 orev ++
          CREATOR_ID ++ CREATOR_REVISION) ++
          List.replicate (len - 36) 0)[i]? :=
      fun _ hi9 => update_checksum_getElem?_ne hu hi9
    refine ⟨s, hnew, new_length hnew, ?_, ?_, ?_, ?_, ?_, ?_, ?_, ?_, ?_,
      sum_update_checksum hu⟩
    · -- signature at [0..4)
      intro j hj
      rw [hidx j (by omega)]
      simp only [List.append_assoc]
      exact List.getElem?_append_left (by omega)
    · -- length field at [4..8)
      have hread : readLE32 s.data 4 = len % 4294967296 := by
        apply readLE32_eq_le32
        intro j hj
        rw [hidx (4 + j) (by omega)]
        simp only [List.append_assoc]
        rw [List.getElem?_append_right (by omega)]
        rw [show 4 + j - sig.length = j from by omega]
        exact List.getElem?_append_left (by omega)
      omega
    · -- revision at 8
      rw [hidx 8 (by omega)]
      simp only [List.append_assoc]
      rw [List.getElem?_append_right (by omega)]
      rw [show 8 - sig.length = 4 from by omega]
      rw [List.getElem?_append_right (by omega)]
      rw [show 4 - (le32 len).length = 0 from by omega]
      rw [List.getElem?_append_left (by omega)]
      rw [show rev % 256 = rev from Nat.mod_eq_of_lt hrev]
      rfl
    · -- OEM id at [10..16)
      intro j hj
      rw [hidx (10 + j) (by omega)]
      simp only [List.append_assoc]
      rw [List.getElem?_append_right (by omega)]
      rw [show 10 + j - sig.length = 6 + j from by omega]
      rw [List.getElem?_append_right (by omega)]
      rw [show 6 + j - (le32 len).length = 2 + j from by omega]
      rw [List.getElem?_append_right (by omega)]
      rw [show 2 + j - ([rev % 256, 0] : List Nat).length = j from by omega]
      exact List.getElem?_append_left (by omega)
    · -- OEM table id at [16..24)
      intro j hj
      rw [hidx (16 + j) (by omega)]
      simp only [List.append_assoc]
      rw [List.getElem?_append_right (by omega)]
      rw [show 16 + j - sig.length = 12 + j from by omega]
      rw [List.getElem?_append_right (by omega)]
      rw [show 12 + j - (le32 len).length = 8 + j from by omega]
      rw [List.getElem?_append_right (by omega)]
      rw [show 8 + j - ([rev % 256, 0] : List Nat).length = 6 + j from by omega]
      rw [List.getElem?_append_right (by omega)]
      rw [show 6 + j - oid.length = j from by omega]
      exact List.getElem?_append_left (by omega)
    · -- OEM revision at [24..28)
      have hread : readLE32 s.data 24 = orev % 4294967296 := by
        apply readLE32_eq_le32
        intro j hj
        rw [hidx (24 + j) (by omega)]
        simp only [List.append_assoc]
        rw [List.getElem?_append_right (by omega)]
        rw [show 24 + j - sig.length = 20 + j from by omega]
        rw [List.getElem?_append_right (by omega)]
        rw [show 20 + j - (le32 len).length = 16 + j from by omega]
        rw [List.getElem?_append_right (by omega)]
        rw [show 16 + j - ([rev % 256, 0] : List Nat).length = 14 + j from
          by omega]
        rw [List.getElem?_append_right (by omega)]
        rw [show 14 + j - oid.length = 8 + j from by omega]
        rw [List.getElem?_append_right (by omega)]
        rw [show 8 + j - ot.length = j from by omega]
        exact List.getElem?_append_left (by omega)
      omega
    · -- creator id at [28..32)
      intro j hj
      rw [hidx (28 + j) (by omega)]
      simp only [List.append_assoc]
      rw [List.getElem?_append_right (by omega)]
      rw [show 28 + j - sig.length = 24 + j from by omega]
      rw [List.getElem?_append_right (by omega)]
      rw [show 24 + j - (le32 len).length = 20 + j from by omega]
      rw [List.getElem?_append_right (by omega)]
      rw [show 20 + j - ([rev % 256, 0] : List Nat).length = 18 + j from
        by omega]
      rw [List.getElem?_append_right (by omega)]
      rw [show 18 + j - oid.length = 12 + j from by omega]
      rw [List.getElem?_append_right (by omega)]
      rw [show 12 + j - ot.length = 4 + j from by omega]
      rw [List.getElem?_append_right (by omega)]
      rw [show 4 + j - (le32 orev).length = j from by omega]
      exact List.getElem?_append_left (by omega)
    · -- creator revision at [32..36)
      intro j hj
      rw [hidx (32 + j) (by omega)]
      simp only [List.append_assoc]
      rw [List.getElem?_append_right (by omega)]
      rw [show 32 + j - sig.length = 28 + j from by omega]
      rw [List.getElem?_append_right (by omega)]
      rw [show 28 + j - (le32 len).length = 24 + j from by omega]
      rw [List.getElem?_append_right (by omega)]
      rw [show 24 + j - ([rev % 256, 0] : List Nat).length = 22 + j from
        by omega]
      rw [List.getElem?_append_right (by omega)]
      rw [show 22 + j - oid.length = 16 + j from by omega]
      rw [List.getElem?_append_right (by omega)]
      rw [show 16 + j - ot.length = 8 + j from by omega]
      rw [List.getElem?_append_right (by omega)]
      rw [show 8 + j - (le32 orev).length = 4 + j from by omega]
      rw [List.getElem?_append_right (by omega)]
      rw [show 4 + j - CREATOR_ID.length = j from by omega]
      exact List.getElem?_append_left (by omega)
    · -- zero fill from 36 to len
      intro i h36i hilen
      rw [hidx i (by omega)]
      rw [List.getElem?_append_right (by omega)]
      rw [hh]
      simp only [List.getElem?_replicate]
      rw [if_pos (by omega)]

theorem c4_new_spec_witness :
    Sdt.new sigT 35 1 oemIdT oemTableT 1 = none ∧
    readLE32 sdt40.data 4 = 40 ∧ sdt40.data[39]? = some 0 := by
  refine ⟨(c4_new_spec sigT 35 1 oemIdT oemTableT 1 (by decide) (by decide)
    (by decide) (by decide) (by decide) (by decide)).1 (by decide), ?_, ?_⟩
  all_goals
    obtain ⟨s, hnew, hlen, hsg, hfield, hrv, hoid, hot, horv, hcid, hcrv,
      hzero, hsum⟩ := (c4_new_spec sigT 40 1 oemIdT oemTableT 1 (by decide)
      (by decide) (by decide) (by decide) (by decide) (by decide)).2
      (by decide)
  all_goals
    have hs : sdt40 = s := by
      show (Sdt.new sigT 40 1 oemIdT oemTableT 1).getD ⟨[]⟩ = s
      rw [hnew]
      rfl
  · rw [hs]
    exact hfield
  · rw [hs]
    exact hzero 39 (by omega) (by omega)
